import Mathlib

attribute [local semireducible] Rat.add Rat.mul Rat.inv Rat.sub

/-!
Shallow embedding of the numerics root-finding library (src/epsilon.rs and
src/roots.rs) over the rationals, together with proofs settling the frozen
claims about it.

The generic float type parameter of the source is instantiated with an exact
ordered field, so the arithmetic of the algorithms is modelled exactly.  The
source's possibly unbounded while loops are modelled as fuel-indexed
interpreters: a loop is a function of a fuel bound and a state, returning
none when the fuel ran out (a model artifact, never a source outcome) and
some r when the loop finished with the source's result r.  Quantifying over
all fuel values covers every terminating execution of the source loop.

In the source, the loop-local variables left_val, right_val, mid and mid_val
always equal target(left), target(right), (left+right)/2 and target(mid) for
the current left and right (they are initialised that way and every update
preserves it), so the loop state here carries only the iteration counter and
the bracket endpoints, and the derived values are recomputed where the source
reads them.  This is a lossless representation because the target is pure.
-/

/-- Rust's Option::map_or: a default value for none, a function applied to
the content of some. -/
def mapOr {α : Type*} {β : Type*} (o : Option α) (d : β) (f : α → β) : β :=
  match o with
  | none => d
  | some a => f a

/-! ### epsilon.rs: the Epsilon trait implementation for floats -/

/-- Epsilon::close from src/epsilon.rs: abs(other - self) < abs(precision). -/
def close (x other precision : ℚ) : Bool :=
  decide (|other - x| < |precision|)

/-- Epsilon::near_zero from src/epsilon.rs: abs(self) < abs(precision). -/
def near_zero (x precision : ℚ) : Bool :=
  decide (|x| < |precision|)

/-! ### roots.rs: single-root bisection -/

/-- OneRootBisectCfg from src/roots.rs. -/
structure OneRootBisectCfg where
  precision : ℚ
  max_iters : Option ℕ
deriving DecidableEq

/-- State of the bisect_one while loop: the iteration counter and the current
bracket.  The source's left_val, right_val, mid, mid_val are derived (see the
file comment). -/
structure BState where
  iter : ℕ
  left : ℚ
  right : ℚ
deriving DecidableEq

/-- The while-loop condition of bisect_one:
right - left > precision && max_iters.map_or(true, |m| iter < m). -/
def bisectCond (p : ℚ) (mi : Option ℕ) (st : BState) : Bool :=
  decide (st.right - st.left > p) && mapOr mi true (fun m => decide (st.iter < m))

/-- One execution of the bisect_one loop body.  none models the source's
early `return None` (neither half-bracket keeps the sign change); some is the
updated state after narrowing the bracket and incrementing the counter. -/
def bisectStep (f : ℚ → ℚ) (st : BState) : Option BState :=
  let mid := (st.left + st.right) / 2
  if f st.left * f mid ≤ 0 then
    some ⟨st.iter + 1, st.left, mid⟩
  else if f mid * f st.right ≤ 0 then
    some ⟨st.iter + 1, mid, st.right⟩
  else
    none

/-- The result selection after the bisect_one loop: left if its value has
smaller magnitude than the midpoint's, else right if its value has smaller
magnitude than the midpoint's, else the midpoint. -/
def bisectSelect (f : ℚ → ℚ) (st : BState) : ℚ :=
  let mid := (st.left + st.right) / 2
  if |f st.left| < |f mid| then st.left
  else if |f st.right| < |f mid| then st.right
  else mid

/-- Fuel-indexed interpreter of the bisect_one while loop.  Outer none: fuel
ran out (model artifact).  some none: the source returned None from inside
the loop.  some (some v): the loop exited and the selection returned v. -/
def bisectLoop (f : ℚ → ℚ) (p : ℚ) (mi : Option ℕ) : ℕ → BState → Option (Option ℚ)
  | 0, _ => none
  | fuel + 1, st =>
    if bisectCond p mi st then
      match bisectStep f st with
      | none => some none
      | some st2 => bisectLoop f p mi fuel st2
    else
      some (some (bisectSelect f st))

/-- bisect_one from src/roots.rs, fuel-indexed.  The initial check returns
None when target(left) * target(right) > 0; otherwise the loop runs from
iteration 0 on the given bracket. -/
def bisect_one (fuel : ℕ) (cfg : OneRootBisectCfg) (left right : ℚ) (f : ℚ → ℚ) :
    Option (Option ℚ) :=
  if f left * f right > 0 then some none
  else bisectLoop f cfg.precision cfg.max_iters fuel ⟨0, left, right⟩

/-- Partial unrolling of the bisect_one loop: the state after n loop-body
executions, provided the loop condition held before each of them and no body
returned None.  Used to speak about the states the loop passes through. -/
def bisectIter (f : ℚ → ℚ) (p : ℚ) (mi : Option ℕ) : ℕ → BState → Option BState
  | 0, st => some st
  | n + 1, st =>
    if bisectCond p mi st then
      match bisectStep f st with
      | none => none
      | some st2 => bisectIter f p mi n st2
    else
      none

/-! ### roots.rs: multi-root bisection -/

/-- MultiRootBisectCfg from src/roots.rs. -/
structure MultiRootBisectCfg where
  precision : ℚ
  max_iters : Option ℕ
  num_intervals : ℕ
deriving DecidableEq

/-- The mutable part of MultiRootBisectState from src/roots.rs: the cursor
and the last emitted root.  The immutable fields (cfg, left, right, target)
are passed to the operations explicitly. -/
structure MultiRootBisectState where
  cur_interval : ℕ
  last_root : Option ℚ
deriving DecidableEq

/-- interval_width from MultiRootBisectState::next: the requested interval
split into num_intervals equal chunks.  The source converts num_intervals to
the scalar type with from_usize, which always succeeds here. -/
def intervalWidth (cfg : MultiRootBisectCfg) (L R : ℚ) : ℚ :=
  (R - L) / (cfg.num_intervals : ℚ)

/-- The left endpoint of chunk number cur:
left = self.left + interval_width * int. -/
def chunkLeft (cfg : MultiRootBisectCfg) (L R : ℚ) (cur : ℕ) : ℚ :=
  L + intervalWidth cfg L R * (cur : ℚ)

/-- The right endpoint of chunk number cur: right = left + interval_width. -/
def chunkRight (cfg : MultiRootBisectCfg) (L R : ℚ) (cur : ℕ) : ℚ :=
  chunkLeft cfg L R cur + intervalWidth cfg L R

/-- The while loop of MultiRootBisectState::next, fuel-indexed (the source
loop runs at most num_intervals - cur_interval times, so any fuel at least
that large is enough).  ifuel is the fuel handed to each inner bisect_one
call; an inner call running out of fuel aborts the model with none (model
artifact).  On success, returns (emitted root or none, new cursor, new last
root, number of bisect_one invocations performed). -/
def multiLoop (cfg : MultiRootBisectCfg) (L R : ℚ) (f : ℚ → ℚ) (ifuel : ℕ) :
    ℕ → ℕ → Option ℚ → Option (Option ℚ × ℕ × Option ℚ × ℕ)
  | 0, cur, last =>
    if cur < cfg.num_intervals then none
    else some (none, cur, last, 0)
  | fuel + 1, cur, last =>
    if cur < cfg.num_intervals then
      match bisect_one ifuel ⟨cfg.precision, cfg.max_iters⟩
          (chunkLeft cfg L R cur) (chunkRight cfg L R cur) f with
      | none => none
      | some (some root) =>
        if mapOr last false (fun old => close old root (2 * cfg.precision)) then
          (multiLoop cfg L R f ifuel fuel (cur + 1) last).map
            (fun out => (out.1, out.2.1, out.2.2.1, out.2.2.2 + 1))
        else
          some (some root, cur + 1, some root, 1)
      | some none =>
        (multiLoop cfg L R f ifuel fuel (cur + 1) last).map
          (fun out => (out.1, out.2.1, out.2.2.1, out.2.2.2 + 1))
    else
      some (none, cur, last, 0)

/-- MultiRootBisectState::next from src/roots.rs.  Returns (produced item,
new iterator state, number of bisect_one invocations), or none when an inner
bisect_one ran out of fuel. -/
def multiNext (cfg : MultiRootBisectCfg) (L R : ℚ) (f : ℚ → ℚ) (ifuel : ℕ)
    (st : MultiRootBisectState) :
    Option (Option ℚ × MultiRootBisectState × ℕ) :=
  if st.cur_interval > cfg.num_intervals then some (none, st, 0)
  else
    (multiLoop cfg L R f ifuel cfg.num_intervals st.cur_interval st.last_root).map
      (fun out => (out.1, ⟨out.2.1, out.2.2.1⟩, out.2.2.2))

/-- bisect_multi from src/roots.rs: constructs the iterator in its initial
state (cursor 0, no last root). -/
def bisect_multi : MultiRootBisectState := ⟨0, none⟩

/-- Full consumption of the iterator, Rust style: pull with next until the
first none item, collecting the emitted roots and summing the bisect_one
invocation counts.  ofuel bounds the number of pulls (a model artifact). -/
def multiConsume (cfg : MultiRootBisectCfg) (L R : ℚ) (f : ℚ → ℚ) (ifuel : ℕ) :
    ℕ → MultiRootBisectState → Option (List ℚ × ℕ)
  | 0, _ => none
  | ofuel + 1, st =>
    match multiNext cfg L R f ifuel st with
    | none => none
    | some (none, _, k) => some ([], k)
    | some (some r, st2, k) =>
      (multiConsume cfg L R f ifuel ofuel st2).map (fun out => (r :: out.1, k + out.2))

/-! ### roots.rs: safeguarded Newton iteration -/

/-- OneRootNewtonCfg from src/roots.rs. -/
structure OneRootNewtonCfg where
  precision : ℚ
  max_iters : Option ℕ
deriving DecidableEq

/-- State of the newton_one while loop: iteration counter, current bracket,
current estimate, previous estimate. -/
structure NState where
  iter : ℕ
  left : ℚ
  right : ℚ
  root : ℚ
  prev_root : Option ℚ
deriving DecidableEq

/-- next_newton_iter from src/roots.rs: the Newton step, or none when the
derivative is near zero or the update leaves [left, right]. -/
def next_newton_iter (prec l r old : ℚ) (f df : ℚ → ℚ) : Option ℚ :=
  let d := df old
  if near_zero d prec then none
  else
    let res := old - f old / d
    if res < l then none
    else if res > r then none
    else some res

/-- linear_fallback from src/roots.rs: the secant-style interpolation
estimate, or none when it leaves [x1, x2].  In the source the scalar type is
a float, so a zero divisor y2 - y1 produces an infinite or NaN quotient; in
this exact model division by zero yields zero.  Claim C9 concerns exactly
whether the divisor can be zero, which is a statement about the arguments,
not about the quotient. -/
def linear_fallback (x1 x2 y1 y2 : ℚ) : Option ℚ :=
  let res := ((y2 - y1) * x1 - (x2 - x1) * y1) / (y2 - y1)
  if res < x1 then none
  else if res > x2 then none
  else some res

/-- The while-loop condition of newton_one:
prev_root.map_or(true, |old| !root.close(old, precision))
&& max_iters.map_or(true, |max| iter < max). -/
def newtonCond (p : ℚ) (mi : Option ℕ) (st : NState) : Bool :=
  mapOr st.prev_root true (fun old => !(close st.root old p))
    && mapOr mi true (fun m => decide (st.iter < m))

/-- One execution of the newton_one loop body: try the Newton step, else the
linear fallback; none models the source's `return None` (both failed).  On an
accepted estimate the bracket is re-tightened using the sign of
target(left) * target(new estimate). -/
def newtonBody (f df : ℚ → ℚ) (p : ℚ) (st : NState) : Option NState :=
  let left_val := f st.left
  let right_val := f st.right
  let step :=
    match next_newton_iter p st.left st.right st.root f df with
    | some next => some next
    | none => linear_fallback st.left st.right left_val right_val
  match step with
  | none => none
  | some root2 =>
    let val_at_root := f root2
    if left_val * val_at_root ≤ 0 then
      some ⟨st.iter + 1, st.left, root2, root2, some st.root⟩
    else
      some ⟨st.iter + 1, root2, st.right, root2, some st.root⟩

/-- Fuel-indexed interpreter of the newton_one while loop.  Outer none: fuel
ran out (model artifact).  some none: the source returned None.  some
(some v): the loop exited and newton_one returned v. -/
def newtonLoop (f df : ℚ → ℚ) (p : ℚ) (mi : Option ℕ) : ℕ → NState → Option (Option ℚ)
  | 0, _ => none
  | fuel + 1, st =>
    if newtonCond p mi st then
      match newtonBody f df p st with
      | none => some none
      | some st2 => newtonLoop f df p mi fuel st2
    else
      some (some st.root)

/-- newton_one from src/roots.rs, fuel-indexed. -/
def newton_one (fuel : ℕ) (cfg : OneRootNewtonCfg) (left right first_approx : ℚ)
    (f df : ℚ → ℚ) : Option (Option ℚ) :=
  newtonLoop f df cfg.precision cfg.max_iters fuel ⟨0, left, right, first_approx, none⟩

/-- Partial unrolling of the newton_one loop: the state after n loop-body
executions, provided the loop condition held before each of them and no body
returned None. -/
def nIter (f df : ℚ → ℚ) (p : ℚ) (mi : Option ℕ) : ℕ → NState → Option NState
  | 0, st => some st
  | n + 1, st =>
    if newtonCond p mi st then
      match newtonBody f df p st with
      | none => none
      | some st2 => nIter f df p mi n st2
    else
      none

/-! ### Helper lemmas about the bisect_one loop -/

/-- The loop body can only return None when both half-bracket sign conditions
fail strictly, that is when left_val * mid_val > 0 and mid_val * right_val > 0. -/
theorem bisectStep_none_iff (f : ℚ → ℚ) (st : BState) :
    bisectStep f st = none ↔
      0 < f st.left * f ((st.left + st.right) / 2) ∧
      0 < f ((st.left + st.right) / 2) * f st.right := by
  simp only [bisectStep]
  split_ifs with h1 h2
  · simp only [reduceCtorEq, false_iff, not_and]
    intro ha
    exact absurd ha (not_lt.2 h1)
  · simp only [reduceCtorEq, false_iff, not_and]
    intro _ hb
    exact absurd hb (not_lt.2 h2)
  · simp only [true_iff]
    exact ⟨lt_of_not_le h1, lt_of_not_le h2⟩

/-- One loop-body execution keeps the sign-change bracket: the new endpoint
values have non-positive product. -/
theorem bisectStep_preserves (f : ℚ → ℚ) (st st2 : BState)
    (h : bisectStep f st = some st2) : f st2.left * f st2.right ≤ 0 := by
  simp only [bisectStep] at h
  split_ifs at h with h1 h2
  · cases h
    exact h1
  · cases h
    exact h2

/-- If the partial unrolling reaches an exit state (loop condition false)
after n body executions, then the loop, run with more than n fuel, finishes
and returns the selection at that state. -/
theorem bisectIter_exit_loop (f : ℚ → ℚ) (p : ℚ) (mi : Option ℕ) :
    ∀ (n : ℕ) (st st2 : BState), bisectIter f p mi n st = some st2 →
    bisectCond p mi st2 = false →
    ∀ fuel, n < fuel → bisectLoop f p mi fuel st = some (some (bisectSelect f st2)) := by
  intro n
  induction n with
  | zero =>
    intro st st2 h hc fuel hf
    simp only [bisectIter, Option.some.injEq] at h
    subst h
    obtain ⟨fu, rfl⟩ : ∃ fu, fuel = fu + 1 := ⟨fuel - 1, by omega⟩
    simp [bisectLoop, hc]
  | succ n ih =>
    intro st st2 h hc fuel hf
    rw [bisectIter] at h
    by_cases hcs : bisectCond p mi st
    · rw [if_pos hcs] at h
      cases hs : bisectStep f st with
      | none => rw [hs] at h; simp at h
      | some st1 =>
        rw [hs] at h
        obtain ⟨fu, rfl⟩ : ∃ fu, fuel = fu + 1 := ⟨fuel - 1, by omega⟩
        rw [bisectLoop, if_pos hcs, hs]
        exact ih st1 st2 h hc fu (by omega)
    · rw [if_neg hcs] at h
      simp at h

/-- If the loop finishes with a value, the partial unrolling reaches an exit
state whose selection is that value. -/
theorem bisectLoop_value_iter (f : ℚ → ℚ) (p : ℚ) (mi : Option ℕ) :
    ∀ (fuel : ℕ) (st : BState) (v : ℚ), bisectLoop f p mi fuel st = some (some v) →
    ∃ n st2, bisectIter f p mi n st = some st2 ∧ bisectCond p mi st2 = false ∧
      v = bisectSelect f st2 := by
  intro fuel
  induction fuel with
  | zero => intro st v h; simp [bisectLoop] at h
  | succ fu ih =>
    intro st v h
    rw [bisectLoop] at h
    by_cases hcs : bisectCond p mi st
    · rw [if_pos hcs] at h
      cases hs : bisectStep f st with
      | none => rw [hs] at h; simp at h
      | some st1 =>
        rw [hs] at h
        obtain ⟨n, st2, h1, h2, h3⟩ := ih st1 v h
        exact ⟨n + 1, st2, by rw [bisectIter, if_pos hcs, hs]; exact h1, h2, h3⟩
    · rw [if_neg hcs] at h
      simp only [Option.some.injEq] at h
      exact ⟨0, st, by simp [bisectIter], by simpa using hcs, h.symm⟩

/-- If the loop finishes with None, the partial unrolling reaches a state
where the loop condition holds and the body returns None. -/
theorem bisectLoop_none_iter (f : ℚ → ℚ) (p : ℚ) (mi : Option ℕ) :
    ∀ (fuel : ℕ) (st : BState), bisectLoop f p mi fuel st = some none →
    ∃ n st2, bisectIter f p mi n st = some st2 ∧ bisectCond p mi st2 = true ∧
      bisectStep f st2 = none := by
  intro fuel
  induction fuel with
  | zero => intro st h; simp [bisectLoop] at h
  | succ fu ih =>
    intro st h
    rw [bisectLoop] at h
    by_cases hcs : bisectCond p mi st
    · rw [if_pos hcs] at h
      cases hs : bisectStep f st with
      | none => exact ⟨0, st, by simp [bisectIter], by simpa using hcs, hs⟩
      | some st1 =>
        rw [hs] at h
        obtain ⟨n, st2, h1, h2, h3⟩ := ih st1 h
        exact ⟨n + 1, st2, by rw [bisectIter, if_pos hcs, hs]; exact h1, h2, h3⟩
    · rw [if_neg hcs] at h
      simp at h

/-- Determinism: once the partial unrolling reaches a state where the loop
condition holds and the body returns None, any completed run of the loop
from the same start returns None. -/
theorem bisectIter_none_loop (f : ℚ → ℚ) (p : ℚ) (mi : Option ℕ) :
    ∀ (n : ℕ) (st st2 : BState), bisectIter f p mi n st = some st2 →
    bisectCond p mi st2 = true → bisectStep f st2 = none →
    ∀ fuel res, bisectLoop f p mi fuel st = some res → res = none := by
  intro n
  induction n with
  | zero =>
    intro st st2 h hc hs fuel res hl
    simp only [bisectIter, Option.some.injEq] at h
    subst h
    cases fuel with
    | zero => simp [bisectLoop] at hl
    | succ fu =>
      rw [bisectLoop, if_pos hc, hs] at hl
      simpa using hl.symm
  | succ n ih =>
    intro st st2 h hc hs fuel res hl
    rw [bisectIter] at h
    by_cases hcs : bisectCond p mi st
    · rw [if_pos hcs] at h
      cases hstep : bisectStep f st with
      | none => rw [hstep] at h; simp at h
      | some st1 =>
        rw [hstep] at h
        cases fuel with
        | zero => simp [bisectLoop] at hl
        | succ fu =>
          rw [bisectLoop, if_pos hcs, hstep] at hl
          exact ih st1 st2 h hc hs fu res hl
    · rw [if_neg hcs] at h
      simp at h

/-! ### Concrete functions used by witnesses and counterexamples -/

/-- The identity target, target(x) = x (the function of the source's own
bisect_one tests). -/
def idf (x : ℚ) : ℚ := x

/-- A target exhibiting the selection order of bisect_one: value -2 at 0,
value 1 at 1, value 3 elsewhere (in particular at the midpoint 1/2). -/
def cexTarget (x : ℚ) : ℚ := if x = 0 then -2 else if x = 1 then 1 else 3

/-! ### Claims C1 to C5 -/

/-- C1: for every target function, tolerance, and endpoints left, right with
target(left) * target(right) ≤ 0, if the bisect_one loop exits at a state
whose bracket width is at most the tolerance (exit forced by the width test,
not only by the iteration cap), then the value bisect_one returns differs
from any true root of the target inside the exit bracket by at most the
tolerance. -/
theorem bisect_one_tolerance (cfg : OneRootBisectCfg) (l r : ℚ) (f : ℚ → ℚ)
    (hpr : f l * f r ≤ 0) (n : ℕ) (st2 : BState)
    (hrun : bisectIter f cfg.precision cfg.max_iters n ⟨0, l, r⟩ = some st2)
    (hwidth : st2.right - st2.left ≤ cfg.precision)
    (r0 : ℚ) (hroot : f r0 = 0) (hin1 : st2.left ≤ r0) (hin2 : r0 ≤ st2.right) :
    |bisectSelect f st2 - r0| ≤ cfg.precision ∧
    ∀ fuel, n < fuel → bisect_one fuel cfg l r f = some (some (bisectSelect f st2)) := by
  have hnlt : ¬ st2.right - st2.left > cfg.precision := not_lt.2 hwidth
  have hexit : bisectCond cfg.precision cfg.max_iters st2 = false := by
    simp [bisectCond, hnlt]
  have hlr : st2.left ≤ st2.right := le_trans hin1 hin2
  have habs : |bisectSelect f st2 - r0| ≤ cfg.precision := by
    have hm1 : st2.left ≤ (st2.left + st2.right) / 2 := by linarith
    have hm2 : (st2.left + st2.right) / 2 ≤ st2.right := by linarith
    simp only [bisectSelect]
    split_ifs <;> (rw [abs_le]; constructor <;> linarith)
  refine ⟨habs, fun fuel hf => ?_⟩
  rw [bisect_one, if_neg (not_lt.2 hpr)]
  exact bisectIter_exit_loop f cfg.precision cfg.max_iters n ⟨0, l, r⟩ st2 hrun hexit fuel hf

/-- Witness for C1: target x ↦ x on [-1, 1] with precision 1/2 and no cap;
the loop exits after 2 iterations at bracket [-1/2, 0], and the returned
value (0, the right endpoint, chosen by the selection) is within 1/2 of the
true root 0. -/
theorem bisect_one_tolerance_witness :
    |bisectSelect idf ⟨2, -1/2, 0⟩ - 0| ≤ (1 : ℚ)/2 ∧
    ∀ fuel, 2 < fuel →
      bisect_one fuel ⟨1/2, none⟩ (-1) 1 idf = some (some (bisectSelect idf ⟨2, -1/2, 0⟩)) :=
  bisect_one_tolerance ⟨1/2, none⟩ (-1) 1 idf (by decide) 2 ⟨2, -1/2, 0⟩
    (by decide) (by decide) 0 (by decide) (by decide) (by decide)

/-- Properties of the result selection: it is one of left, right, mid; its
function value is no larger in magnitude than the midpoint's; and the
candidates are tried in the fixed order left, right, mid (left wins as soon
as it beats the midpoint, regardless of the right endpoint). -/
theorem bisectSelect_spec (f : ℚ → ℚ) (st : BState) :
    (bisectSelect f st = st.left ∨ bisectSelect f st = st.right ∨
      bisectSelect f st = (st.left + st.right) / 2) ∧
    |f (bisectSelect f st)| ≤ |f ((st.left + st.right) / 2)| ∧
    (|f st.left| < |f ((st.left + st.right) / 2)| → bisectSelect f st = st.left) ∧
    (¬ |f st.left| < |f ((st.left + st.right) / 2)| →
      |f st.right| < |f ((st.left + st.right) / 2)| → bisectSelect f st = st.right) ∧
    (¬ |f st.left| < |f ((st.left + st.right) / 2)| →
      ¬ |f st.right| < |f ((st.left + st.right) / 2)| →
      bisectSelect f st = (st.left + st.right) / 2) := by
  simp only [bisectSelect]
  split_ifs with h1 h2
  · exact ⟨Or.inl rfl, le_of_lt h1, fun _ => rfl,
      fun hn _ => absurd h1 hn, fun hn _ => absurd h1 hn⟩
  · exact ⟨Or.inr (Or.inl rfl), le_of_lt h2, fun hc => absurd hc h1,
      fun _ _ => rfl, fun _ hn => absurd h2 hn⟩
  · exact ⟨Or.inr (Or.inr rfl), le_refl _, fun hc => absurd hc h1,
      fun _ hc => absurd hc h2, fun _ _ => rfl⟩

/-- C2 counterexample: with precision 1/10, an iteration cap of 0, the
bracket [0, 1] and the target cexTarget (values -2 at left, 1 at right, 3 at
the midpoint), bisect_one returns the left endpoint 0 even though the right
endpoint, also a candidate at loop exit (the exit state is the initial one,
as the second conjunct shows), has a strictly smaller function magnitude:
the claimed inequality on the returned value fails for the right endpoint. -/
theorem bisect_one_not_min_cex :
    bisect_one 1 ⟨1/10, some 0⟩ 0 1 cexTarget = some (some 0) ∧
    bisectCond (1/10) (some 0) ⟨0, 0, 1⟩ = false ∧
    ¬ |cexTarget 0| ≤ |cexTarget 1| := by decide

/-- C2 amended: whenever bisect_one returns Some(value), the loop exited at
some reachable state, and the value is selected from the candidates left,
right, mid of that state in that fixed order: left if its function magnitude
beats the midpoint's, else right if its function magnitude beats the
midpoint's, else mid.  Consequently the value's function magnitude is at
most the midpoint's, but not necessarily at most the other endpoints'
(see the counterexample). -/
theorem bisect_one_select_amended (fuel : ℕ) (cfg : OneRootBisectCfg) (l r v : ℚ)
    (f : ℚ → ℚ) (h : bisect_one fuel cfg l r f = some (some v)) :
    ∃ n st2, bisectIter f cfg.precision cfg.max_iters n ⟨0, l, r⟩ = some st2 ∧
      bisectCond cfg.precision cfg.max_iters st2 = false ∧
      v = bisectSelect f st2 ∧
      (v = st2.left ∨ v = st2.right ∨ v = (st2.left + st2.right) / 2) ∧
      |f v| ≤ |f ((st2.left + st2.right) / 2)| ∧
      (|f st2.left| < |f ((st2.left + st2.right) / 2)| → v = st2.left) ∧
      (¬ |f st2.left| < |f ((st2.left + st2.right) / 2)| →
        |f st2.right| < |f ((st2.left + st2.right) / 2)| → v = st2.right) ∧
      (¬ |f st2.left| < |f ((st2.left + st2.right) / 2)| →
        ¬ |f st2.right| < |f ((st2.left + st2.right) / 2)| →
        v = (st2.left + st2.right) / 2) := by
  rw [bisect_one] at h
  by_cases h0 : f l * f r > 0
  · rw [if_pos h0] at h
    simp at h
  · rw [if_neg h0] at h
    obtain ⟨n, st2, h1, h2, h3⟩ :=
      bisectLoop_value_iter f cfg.precision cfg.max_iters fuel ⟨0, l, r⟩ v h
    obtain ⟨m1, m2, m3, m4, m5⟩ := bisectSelect_spec f st2
    subst h3
    exact ⟨n, st2, h1, h2, rfl, m1, m2, m3, m4, m5⟩

/-- Witness for C2 amended, at the run of bisect_one on x ↦ x over [-1, 1]
with precision 1/2. -/
theorem bisect_one_select_amended_witness :
    ∃ n st2, bisectIter idf (1/2 : ℚ) none n ⟨0, -1, 1⟩ = some st2 ∧
      bisectCond (1/2 : ℚ) none st2 = false ∧
      (0 : ℚ) = bisectSelect idf st2 ∧
      ((0 : ℚ) = st2.left ∨ (0 : ℚ) = st2.right ∨ (0 : ℚ) = (st2.left + st2.right) / 2) ∧
      |idf 0| ≤ |idf ((st2.left + st2.right) / 2)| ∧
      (|idf st2.left| < |idf ((st2.left + st2.right) / 2)| → (0 : ℚ) = st2.left) ∧
      (¬ |idf st2.left| < |idf ((st2.left + st2.right) / 2)| →
        |idf st2.right| < |idf ((st2.left + st2.right) / 2)| → (0 : ℚ) = st2.right) ∧
      (¬ |idf st2.left| < |idf ((st2.left + st2.right) / 2)| →
        ¬ |idf st2.right| < |idf ((st2.left + st2.right) / 2)| →
        (0 : ℚ) = (st2.left + st2.right) / 2) :=
  bisect_one_select_amended 5 ⟨1/2, none⟩ (-1) 1 0 idf (by decide)

/-- C3: for every completed run, bisect_one returns None exactly when either
the endpoint values at the initial bracket have product strictly greater
than zero (the pre-loop check, which returns None before any iteration), or
the loop passes through a state where the loop condition holds and both
half-bracket sign conditions fail strictly (left_val * mid_val > 0 and
mid_val * right_val > 0 at once), where it returns None immediately. -/
theorem bisect_one_none_iff (fuel : ℕ) (cfg : OneRootBisectCfg) (l r : ℚ)
    (f : ℚ → ℚ) (res : Option ℚ) (h : bisect_one fuel cfg l r f = some res) :
    res = none ↔
      0 < f l * f r ∨
      ∃ n st2, bisectIter f cfg.precision cfg.max_iters n ⟨0, l, r⟩ = some st2 ∧
        bisectCond cfg.precision cfg.max_iters st2 = true ∧
        0 < f st2.left * f ((st2.left + st2.right) / 2) ∧
        0 < f ((st2.left + st2.right) / 2) * f st2.right := by
  rw [bisect_one] at h
  by_cases h0 : f l * f r > 0
  · rw [if_pos h0] at h
    simp only [Option.some.injEq] at h
    subst h
    simp only [true_iff]
    exact Or.inl h0
  · rw [if_neg h0] at h
    constructor
    · intro hres
      subst hres
      obtain ⟨n, st2, h1, h2, h3⟩ :=
        bisectLoop_none_iter f cfg.precision cfg.max_iters fuel ⟨0, l, r⟩ h
      obtain ⟨h4, h5⟩ := (bisectStep_none_iff f st2).1 h3
      exact Or.inr ⟨n, st2, h1, h2, h4, h5⟩
    · rintro (hbad | ⟨n, st2, h1, h2, h3, h4⟩)
      · exact absurd hbad h0
      · exact bisectIter_none_loop f cfg.precision cfg.max_iters n ⟨0, l, r⟩ st2 h1 h2
          ((bisectStep_none_iff f st2).2 ⟨h3, h4⟩) fuel res h

/-- Witness for C3: the target x ↦ x on [1, 2] has strictly positive values
at both endpoints, so bisect_one returns None by the pre-loop check. -/
theorem bisect_one_none_iff_witness :
    (none : Option ℚ) = none ↔
      0 < idf 1 * idf 2 ∨
      ∃ n st2, bisectIter idf (1/2 : ℚ) none n ⟨0, 1, 2⟩ = some st2 ∧
        bisectCond (1/2 : ℚ) none st2 = true ∧
        0 < idf st2.left * idf ((st2.left + st2.right) / 2) ∧
        0 < idf ((st2.left + st2.right) / 2) * idf st2.right :=
  bisect_one_none_iff 1 ⟨1/2, none⟩ 1 2 idf none (by decide)

/-- Generalized loop invariant behind C4: any state the loop passes through
from a start whose endpoint values have non-positive product still has
endpoint values with non-positive product. -/
theorem bisectIter_preserves_bracket (f : ℚ → ℚ) (p : ℚ) (mi : Option ℕ) :
    ∀ (n : ℕ) (st st2 : BState), f st.left * f st.right ≤ 0 →
    bisectIter f p mi n st = some st2 → f st2.left * f st2.right ≤ 0 := by
  intro n
  induction n with
  | zero =>
    intro st st2 h0 h
    simp only [bisectIter, Option.some.injEq] at h
    subst h
    exact h0
  | succ n ih =>
    intro st st2 h0 h
    rw [bisectIter] at h
    by_cases hcs : bisectCond p mi st
    · rw [if_pos hcs] at h
      cases hs : bisectStep f st with
      | none => rw [hs] at h; simp at h
      | some st1 =>
        rw [hs] at h
        exact ih st1 st2 (bisectStep_preserves f st st1 hs) h
    · rw [if_neg hcs] at h
      simp at h

/-- C4: for every target function and initial bracket whose endpoint values
have non-positive product, every state the bisect_one loop passes through
(so the bracket at the start of every iteration and at loop exit) still has
target(left) * target(right) ≤ 0. -/
theorem bisect_bracket_invariant (f : ℚ → ℚ) (p : ℚ) (mi : Option ℕ) (l r : ℚ)
    (h0 : f l * f r ≤ 0) (n : ℕ) (st2 : BState)
    (h : bisectIter f p mi n ⟨0, l, r⟩ = some st2) :
    f st2.left * f st2.right ≤ 0 :=
  bisectIter_preserves_bracket f p mi n ⟨0, l, r⟩ st2 h0 h

/-- Witness for C4: after 2 iterations on x ↦ x over [-1, 1] the bracket is
[-1/2, 0], whose endpoint values still have non-positive product. -/
theorem bisect_bracket_invariant_witness :
    idf (BState.mk 2 (-1/2) 0).left * idf (BState.mk 2 (-1/2) 0).right ≤ 0 :=
  bisect_bracket_invariant idf (1/2) none (-1) 1 (by decide) 2 ⟨2, -1/2, 0⟩ (by decide)

/-- C5 counterexample: bisect_one is not symmetric in the sign of the
tolerance.  With target x ↦ x - 1/3 on [0, 1] and one allowed iteration,
precision 2 stops the loop at once (width 1 is not above 2) and returns the
midpoint 1/2, while precision -2 lets the loop run its one iteration and
returns 1/4. -/
theorem bisect_one_tolerance_sign_cex :
    bisect_one 2 ⟨2, some 1⟩ 0 1 (fun x => x - 1/3) ≠
    bisect_one 2 ⟨-2, some 1⟩ 0 1 (fun x => x - 1/3) := by decide

/-- close is symmetric in the sign of its tolerance argument. -/
theorem close_tolerance_sign (x y p : ℚ) : close x y p = close x y (-p) := by
  simp [close, abs_neg]

/-- near_zero is symmetric in the sign of its tolerance argument. -/
theorem near_zero_tolerance_sign (x p : ℚ) : near_zero x p = near_zero x (-p) := by
  simp [near_zero, abs_neg]

/-- next_newton_iter touches the tolerance only through near_zero, so it is
symmetric in its sign. -/
theorem next_newton_iter_tolerance_sign (p l r old : ℚ) (f df : ℚ → ℚ) :
    next_newton_iter p l r old f df = next_newton_iter (-p) l r old f df := by
  simp only [next_newton_iter]
  rw [near_zero_tolerance_sign]

/-- The newton_one loop condition touches the tolerance only through close,
so it is symmetric in its sign. -/
theorem newtonCond_tolerance_sign (p : ℚ) (mi : Option ℕ) (st : NState) :
    newtonCond p mi st = newtonCond (-p) mi st := by
  unfold newtonCond
  cases hpr : st.prev_root with
  | none => rfl
  | some old =>
    simp only [mapOr]
    rw [close_tolerance_sign]

/-- The newton_one loop body touches the tolerance only through
next_newton_iter, so it is symmetric in its sign. -/
theorem newtonBody_tolerance_sign (f df : ℚ → ℚ) (p : ℚ) (st : NState) :
    newtonBody f df p st = newtonBody f df (-p) st := by
  unfold newtonBody
  rw [next_newton_iter_tolerance_sign]

set_option maxHeartbeats 1000000 in
/-- The whole newton_one loop is symmetric in the sign of the tolerance. -/
theorem newtonLoop_tolerance_sign (f df : ℚ → ℚ) (p : ℚ) (mi : Option ℕ) :
    ∀ (fuel : ℕ) (st : NState),
    newtonLoop f df p mi fuel st = newtonLoop f df (-p) mi fuel st := by
  intro fuel
  induction fuel with
  | zero => intro st; rfl
  | succ fu ih =>
    intro st
    have hceq := newtonCond_tolerance_sign p mi st
    have hbeq := newtonBody_tolerance_sign f df p st
    simp only [newtonLoop, ← hceq, ← hbeq]
    cases hc : newtonCond p mi st with
    | false => simp [hc]
    | true =>
      simp only [hc, if_true]
      cases hb : newtonBody f df p st with
      | none => rfl
      | some st1 => exact ih st1

/-- C5 amended: the primitives close and near_zero take the absolute value
of the tolerance and are symmetric in its sign, and so is newton_one, all of
whose tolerance comparisons go through them; but bisect_one compares the
bracket width against the raw precision in its loop condition, so bisect_one
(and with it bisect_multi, which passes its precision through) is not
symmetric in the sign of the tolerance — see the counterexample. -/
theorem tolerance_sign_symmetry :
    (∀ x y p : ℚ, close x y p = close x y (-p)) ∧
    (∀ x p : ℚ, near_zero x p = near_zero x (-p)) ∧
    (∀ (fuel : ℕ) (mi : Option ℕ) (l r x0 p : ℚ) (f df : ℚ → ℚ),
      newton_one fuel ⟨p, mi⟩ l r x0 f df = newton_one fuel ⟨-p, mi⟩ l r x0 f df) :=
  ⟨close_tolerance_sign, near_zero_tolerance_sign,
    fun fuel mi l r x0 p f df =>
      newtonLoop_tolerance_sign f df p mi fuel ⟨0, l, r, x0, none⟩⟩

/-! ### Claims C6 and C7 -/

/-- C6: when bisect_one finds a root on the current chunk, the next loop
skips it exactly when the single remembered root (the immediately preceding
emission) is close to it under twice the configured precision: in the skip
case the cursor still advances and the search continues on the following
chunks with the remembered root unchanged; otherwise (remembered root far,
or nothing remembered yet) the root is emitted and becomes the only
remembered root.  No earlier emission takes part in the comparison. -/
theorem multi_dedup_policy (cfg : MultiRootBisectCfg) (L R : ℚ) (f : ℚ → ℚ)
    (ifuel fu cur : ℕ) (last : Option ℚ) (root : ℚ)
    (hcur : cur < cfg.num_intervals)
    (hfind : bisect_one ifuel ⟨cfg.precision, cfg.max_iters⟩
      (chunkLeft cfg L R cur) (chunkRight cfg L R cur) f = some (some root)) :
    (∀ old, last = some old → close old root (2 * cfg.precision) = true →
      multiLoop cfg L R f ifuel (fu + 1) cur last =
        (multiLoop cfg L R f ifuel fu (cur + 1) last).map
          (fun out => (out.1, out.2.1, out.2.2.1, out.2.2.2 + 1))) ∧
    (∀ old, last = some old → close old root (2 * cfg.precision) = false →
      multiLoop cfg L R f ifuel (fu + 1) cur last =
        some (some root, cur + 1, some root, 1)) ∧
    (last = none →
      multiLoop cfg L R f ifuel (fu + 1) cur last =
        some (some root, cur + 1, some root, 1)) := by
  refine ⟨?_, ?_, ?_⟩
  · rintro old rfl hclose
    rw [multiLoop, if_pos hcur, hfind]
    simp only [mapOr, hclose, if_true]
  · rintro old rfl hclose
    rw [multiLoop, if_pos hcur, hfind]
    simp only [mapOr, hclose, Bool.false_eq_true, if_false]
  · rintro rfl
    rw [multiLoop, if_pos hcur, hfind]
    simp only [mapOr, Bool.false_eq_true, if_false]

/-- Witness for C6, on target x ↦ x over [-1, 1] split into 2 chunks with
precision 1/2: chunk 0 emits the root 0; on chunk 1 bisect_one again returns
0, which is close to the remembered 0 under tolerance 2 * (1/2), so it is
skipped and the loop moves on (and finds nothing further). -/
theorem multi_dedup_policy_witness :
    multiLoop ⟨(1:ℚ)/2, none, 2⟩ (-1) 1 idf 3 2 1 (some 0) =
      (multiLoop ⟨(1:ℚ)/2, none, 2⟩ (-1) 1 idf 3 1 2 (some 0)).map
        (fun out => (out.1, out.2.1, out.2.2.1, out.2.2.2 + 1)) :=
  (multi_dedup_policy ⟨(1:ℚ)/2, none, 2⟩ (-1) 1 idf 3 1 1 (some 0) 0
    (by decide) (by decide)).1 0 rfl (by decide)

/-- Bookkeeping for the next loop: on a completed run starting at a cursor
within bounds, the number of bisect_one invocations equals the cursor
advance, the final cursor stays within bounds, and a run that produced no
item has examined all chunks. -/
theorem multiLoop_count (cfg : MultiRootBisectCfg) (L R : ℚ) (f : ℚ → ℚ) (ifuel : ℕ) :
    ∀ (fuel cur : ℕ) (last : Option ℚ) (res : Option ℚ) (cur2 : ℕ)
      (last2 : Option ℚ) (k : ℕ),
    multiLoop cfg L R f ifuel fuel cur last = some (res, cur2, last2, k) →
    cur ≤ cfg.num_intervals →
    k + cur = cur2 ∧ cur2 ≤ cfg.num_intervals ∧
      (res = none → cur2 = cfg.num_intervals) := by
  intro fuel
  induction fuel with
  | zero =>
    intro cur last res cur2 last2 k h hle
    rw [multiLoop] at h
    by_cases hc : cur < cfg.num_intervals
    · rw [if_pos hc] at h
      simp at h
    · rw [if_neg hc] at h
      simp only [Option.some.injEq, Prod.mk.injEq] at h
      obtain ⟨h1, h2, h3, h4⟩ := h
      subst h2
      omega
  | succ fuel ih =>
    intro cur last res cur2 last2 k h hle
    rw [multiLoop] at h
    by_cases hc : cur < cfg.num_intervals
    · rw [if_pos hc] at h
      cases hb : bisect_one ifuel ⟨cfg.precision, cfg.max_iters⟩
          (chunkLeft cfg L R cur) (chunkRight cfg L R cur) f with
      | none => simp [hb] at h
      | some res0 =>
        cases res0 with
        | some root =>
          simp only [hb] at h
          by_cases hdup :
              mapOr last false (fun old => close old root (2 * cfg.precision)) = true
          · rw [if_pos hdup] at h
            obtain ⟨⟨res1, cur1, last1, k1⟩, hrec, heq⟩ := Option.map_eq_some'.1 h
            simp only [Prod.mk.injEq] at heq
            obtain ⟨he1, he2, he3, he4⟩ := heq
            obtain ⟨ha, hb2, hc2⟩ := ih (cur + 1) last res1 cur1 last1 k1 hrec (by omega)
            refine ⟨by omega, by omega, fun hn => ?_⟩
            have h6 := hc2 (he1.trans hn)
            omega
          · rw [if_neg hdup] at h
            simp only [Option.some.injEq, Prod.mk.injEq] at h
            obtain ⟨h1, h2, h3, h4⟩ := h
            subst h1; subst h2; subst h4
            exact ⟨by omega, by omega, fun hn => by simp at hn⟩
        | none =>
          simp only [hb] at h
          obtain ⟨⟨res1, cur1, last1, k1⟩, hrec, heq⟩ := Option.map_eq_some'.1 h
          simp only [Prod.mk.injEq] at heq
          obtain ⟨he1, he2, he3, he4⟩ := heq
          obtain ⟨ha, hb2, hc2⟩ := ih (cur + 1) last res1 cur1 last1 k1 hrec (by omega)
          refine ⟨by omega, by omega, fun hn => ?_⟩
          have h6 := hc2 (he1.trans hn)
          omega
    · rw [if_neg hc] at h
      simp only [Option.some.injEq, Prod.mk.injEq] at h
      obtain ⟨h1, h2, h3, h4⟩ := h
      subst h2
      omega

/-- Consuming the sequence from a cursor within bounds costs exactly the
remaining number of chunks in bisect_one invocations. -/
theorem multiConsume_calls (cfg : MultiRootBisectCfg) (L R : ℚ) (f : ℚ → ℚ) (ifuel : ℕ) :
    ∀ (ofuel : ℕ) (st : MultiRootBisectState) (roots : List ℚ) (calls : ℕ),
    multiConsume cfg L R f ifuel ofuel st = some (roots, calls) →
    st.cur_interval ≤ cfg.num_intervals →
    calls + st.cur_interval = cfg.num_intervals := by
  intro ofuel
  induction ofuel with
  | zero =>
    intro st roots calls h hle
    simp [multiConsume] at h
  | succ ofu ih =>
    intro st roots calls h hle
    rw [multiConsume] at h
    cases hn : multiNext cfg L R f ifuel st with
    | none => rw [hn] at h; simp at h
    | some out =>
      rw [hn] at h
      obtain ⟨res, st2, k⟩ := out
      have hng : ¬ st.cur_interval > cfg.num_intervals := by omega
      rw [multiNext, if_neg hng] at hn
      obtain ⟨⟨res1, cur1, last1, k1⟩, hrec, heq⟩ := Option.map_eq_some'.1 hn
      simp only [Prod.mk.injEq] at heq
      obtain ⟨he1, he2, he3⟩ := heq
      obtain ⟨ha, hb2, hc2⟩ :=
        multiLoop_count cfg L R f ifuel cfg.num_intervals st.cur_interval
          st.last_root res1 cur1 last1 k1 hrec hle
      cases res with
      | none =>
        have h2 : some (([] : List ℚ), k) = some (roots, calls) := h
        simp only [Option.some.injEq, Prod.mk.injEq] at h2
        obtain ⟨hr, hk⟩ := h2
        have h6 := hc2 he1
        omega
      | some r =>
        have h2 : (multiConsume cfg L R f ifuel ofu st2).map
            (fun out => (r :: out.1, k + out.2)) = some (roots, calls) := h
        obtain ⟨⟨roots1, k2⟩, hrec2, heq2⟩ := Option.map_eq_some'.1 h2
        simp only [Prod.mk.injEq] at heq2
        obtain ⟨hq1, hq2⟩ := heq2
        have hst2 : st2.cur_interval = cur1 := by rw [← he2]
        have hih := ih st2 roots1 k2 hrec2 (by omega)
        omega

/-- C7: with num_intervals zero the produced sequence is empty at once (the
first next returns no item, performing no bisect_one invocation), and in
general fully consuming the sequence from its initial state performs
exactly num_intervals invocations of bisect_one before the sequence ends. -/
theorem bisect_multi_exhaustion (cfg : MultiRootBisectCfg) (L R : ℚ) (f : ℚ → ℚ)
    (ifuel : ℕ) :
    (cfg.num_intervals = 0 →
      multiNext cfg L R f ifuel bisect_multi = some (none, bisect_multi, 0)) ∧
    (∀ (ofuel : ℕ) (roots : List ℚ) (calls : ℕ),
      multiConsume cfg L R f ifuel ofuel bisect_multi = some (roots, calls) →
      calls = cfg.num_intervals) := by
  constructor
  · intro h0
    obtain ⟨p, mi, nints⟩ := cfg
    have h1 : nints = 0 := h0
    subst h1
    rfl
  · intro ofuel roots calls h
    have := multiConsume_calls cfg L R f ifuel ofuel bisect_multi roots calls h
      (by simp [bisect_multi])
    simpa [bisect_multi] using this

/-- Witness for C7: with 0 chunks the first pull yields nothing at no cost;
with target x ↦ x over [-1, 1] split into 2 chunks, full consumption emits
the single root 0 and performs exactly 2 bisect_one invocations. -/
theorem bisect_multi_exhaustion_witness :
    multiNext ⟨(1:ℚ)/2, none, 0⟩ (-1) 1 idf 1 bisect_multi = some (none, bisect_multi, 0) ∧
    (2 : ℕ) = MultiRootBisectCfg.num_intervals ⟨(1:ℚ)/2, none, 2⟩ :=
  ⟨(bisect_multi_exhaustion ⟨(1:ℚ)/2, none, 0⟩ (-1) 1 idf 1).1 rfl,
   (bisect_multi_exhaustion ⟨(1:ℚ)/2, none, 2⟩ (-1) 1 idf 3).2 3 [0] 2 (by decide)⟩

/-! ### Claims C8 to C10 -/

set_option maxHeartbeats 1600000 in
/-- The newton_one loop body returns None exactly when the Newton step is
unsafe (next_newton_iter returns none) and the linear fallback estimate also
fails the bracket check, in the same iteration. -/
theorem newtonBody_none_iff (f df : ℚ → ℚ) (p : ℚ) (st : NState) :
    newtonBody f df p st = none ↔
      next_newton_iter p st.left st.right st.root f df = none ∧
      linear_fallback st.left st.right (f st.left) (f st.right) = none := by
  simp only [newtonBody]
  cases hn : next_newton_iter p st.left st.right st.root f df with
  | some nx =>
    simp only [hn, reduceCtorEq, false_and, iff_false]
    split_ifs <;> simp
  | none =>
    cases hf : linear_fallback st.left st.right (f st.left) (f st.right) with
    | none => simp [hn, hf]
    | some fb =>
      simp only [hn, hf, reduceCtorEq, and_false, iff_false]
      split_ifs <;> simp

set_option maxHeartbeats 1600000 in
/-- If the newton_one loop finishes with None, the partial unrolling reaches
a state where the loop condition holds and the body returns None. -/
theorem newtonLoop_none_iter (f df : ℚ → ℚ) (p : ℚ) (mi : Option ℕ) :
    ∀ (fuel : ℕ) (st : NState), newtonLoop f df p mi fuel st = some none →
    ∃ n st2, nIter f df p mi n st = some st2 ∧ newtonCond p mi st2 = true ∧
      newtonBody f df p st2 = none := by
  intro fuel
  induction fuel with
  | zero => intro st h; simp [newtonLoop] at h
  | succ fu ih =>
    intro st h
    rw [newtonLoop] at h
    by_cases hcs : newtonCond p mi st
    · rw [if_pos hcs] at h
      cases hs : newtonBody f df p st with
      | none => exact ⟨0, st, by simp [nIter], by simpa using hcs, hs⟩
      | some st1 =>
        rw [hs] at h
        obtain ⟨n, st2, h1, h2, h3⟩ := ih st1 h
        exact ⟨n + 1, st2, by rw [nIter, if_pos hcs, hs]; exact h1, h2, h3⟩
    · rw [if_neg hcs] at h
      simp at h

set_option maxHeartbeats 1600000 in
/-- C8: newton_one returns None only when, within a single iteration, the
Newton step is unsafe (derivative near zero or update outside the current
bracket) and the linear-interpolation fallback estimate also falls outside
the current bracket.  In particular a near-zero derivative by itself never
causes None: as long as the fallback estimate stays inside the bracket the
iteration proceeds, so None requires the fallback to fail too. -/
theorem newton_one_none_double_failure (fuel : ℕ) (cfg : OneRootNewtonCfg)
    (l r x0 : ℚ) (f df : ℚ → ℚ)
    (h : newton_one fuel cfg l r x0 f df = some none) :
    ∃ n st2, nIter f df cfg.precision cfg.max_iters n ⟨0, l, r, x0, none⟩ = some st2 ∧
      newtonCond cfg.precision cfg.max_iters st2 = true ∧
      next_newton_iter cfg.precision st2.left st2.right st2.root f df = none ∧
      linear_fallback st2.left st2.right (f st2.left) (f st2.right) = none := by
  rw [newton_one] at h
  obtain ⟨n, st2, h1, h2, h3⟩ :=
    newtonLoop_none_iter f df cfg.precision cfg.max_iters fuel ⟨0, l, r, x0, none⟩ h
  obtain ⟨h4, h5⟩ := (newtonBody_none_iff f df cfg.precision st2).1 h3
  exact ⟨n, st2, h1, h2, h4, h5⟩

set_option maxHeartbeats 1600000 in
/-- Witness for C8: target x ↦ x - 10 on the rootless bracket [0, 1] with
derivative 1 and precision 1/2.  In the first iteration the Newton update
from 1/2 is 10, outside the bracket, and the fallback estimate is also 10,
outside the bracket, so newton_one returns None. -/
theorem newton_one_none_double_failure_witness :
    ∃ n st2, nIter (fun x => x - 10) (fun _ => 1) ((1:ℚ)/2) none n
        ⟨0, 0, 1, 1/2, none⟩ = some st2 ∧
      newtonCond ((1:ℚ)/2) none st2 = true ∧
      next_newton_iter ((1:ℚ)/2) st2.left st2.right st2.root
        (fun x => x - 10) (fun _ => 1) = none ∧
      linear_fallback st2.left st2.right ((fun x => x - 10) st2.left)
        ((fun x => x - 10) st2.right) = none :=
  newton_one_none_double_failure 1 ⟨1/2, none⟩ 0 1 (1/2)
    (fun x => x - 10) (fun _ => 1) (by decide)

set_option maxHeartbeats 1600000 in
/-- C9 counterexample: with the constant target 1 and zero derivative, from
the very first iteration of newton_one on bracket [0, 1] (the initial state
is reached in zero steps, the loop condition holds there) the Newton step is
unsafe, so linear_fallback is invoked with y1 = target(0) and y2 = target(1),
and its divisor y2 - y1 is zero: the fallback can be reached with equal
endpoint values, and the claimed nonzero divisor fails. -/
theorem newton_fallback_zero_divisor_cex :
    nIter (fun _ => (1:ℚ)) (fun _ => (0:ℚ)) 1 none 0 ⟨0, 0, 1, 1/2, none⟩ =
      some ⟨0, 0, 1, 1/2, none⟩ ∧
    newtonCond (1:ℚ) none ⟨0, 0, 1, 1/2, none⟩ = true ∧
    next_newton_iter (1:ℚ) 0 1 (1/2) (fun _ => (1:ℚ)) (fun _ => (0:ℚ)) = none ∧
    (fun _ => (1:ℚ)) 1 - (fun _ => (1:ℚ)) 0 = 0 := by decide

/-- C9 amended: when the Newton step is unsafe (so the fallback is invoked)
and the current bracket's endpoint values have strictly negative product,
the fallback divisor target(right) - target(left) is nonzero; without that
sign condition the divisor can be zero, as the constant-target
counterexample shows. -/
theorem newton_fallback_divisor_nonzero (p l r x0 : ℚ) (f df : ℚ → ℚ)
    (hnstep : next_newton_iter p l r x0 f df = none)
    (hsign : f l * f r < 0) : f r - f l ≠ 0 := by
  intro heq
  have h2 : f r = f l := sub_eq_zero.1 heq
  rw [h2] at hsign
  exact absurd hsign (not_lt.2 (mul_self_nonneg (f l)))

/-- Witness for C9 amended: target x ↦ x - 1/2 on [0, 1] with zero
derivative; the Newton step is unsafe, the endpoint values have negative
product, and the divisor is nonzero. -/
theorem newton_fallback_divisor_nonzero_witness :
    (fun x => x - 1/2) 1 - (fun x => x - 1/2) 0 ≠ (0:ℚ) :=
  newton_fallback_divisor_nonzero 1 0 1 (1/2) (fun x => x - 1/2) (fun _ => 0)
    (by decide) (by decide)

set_option maxHeartbeats 1600000 in
/-- C10: with an iteration cap of Some 0 the newton_one loop condition fails
at once (iter = 0 is not below the cap 0), so the call returns the first
approximation unchanged; the result holds for every target and derivative
function, so neither is ever invoked (the loop body, which contains all
their call sites, never runs). -/
theorem newton_one_zero_cap (fuel : ℕ) (p l r x0 : ℚ) (f df : ℚ → ℚ) :
    newton_one (fuel + 1) ⟨p, some 0⟩ l r x0 f df = some (some x0) := rfl
